import Mathlib

/-!
Verification development for the AEO SOTA engine core:
the analysis worker (tokenizer, health scorer, mesh builder) and the
HTML post-processing helpers of the AI service (link sanitizer and
Markdown-to-HTML normalizer).

All text is modelled as `List Char`.  JavaScript string builtins used by
the source (`toLowerCase`, `trim`, `includes`, `startsWith`, `split`,
regular-expression scans) are embedded as executable functions over
`List Char`; each definition notes the source construct it embeds.
`toLowerCase` is modelled on the ASCII range, which is exhaustive for the
character classes (`\w`, `\s`) the source keeps.
-/

namespace Aeo

/-- Model of the JS `\s` class (ASCII part), also used by `trim`. -/
def wsChar (c : Char) : Bool :=
  c = ' ' || c = '\t' || c = '\n' || c = '\r' || c = '\x0b' || c = '\x0c'

/-- Model of the JS `\w` class: `[A-Za-z0-9_]` (this is exact, `\w` is ASCII-only). -/
def isWordChar (c : Char) : Bool :=
  ('a' ≤ c && c ≤ 'z') || ('A' ≤ c && c ≤ 'Z') || ('0' ≤ c && c ≤ '9') || c = '_'

/-- Model of the JS `\d` class: `[0-9]` (exact). -/
def isDigitChar (c : Char) : Bool :=
  '0' ≤ c && c ≤ '9'

/-- ASCII uppercase test, used to state the "tokens are lowercase" property. -/
def isUpperAscii (c : Char) : Bool :=
  65 ≤ c.toNat && c.toNat ≤ 90

/-- Per-character model of JS `toLowerCase` (ASCII range). -/
def asciiToLower (c : Char) : Char :=
  if 65 ≤ c.toNat && c.toNat ≤ 90 then Char.ofNat (c.toNat + 32) else c

/-- Model of JS `s.toLowerCase()`. -/
def toLowerList (l : List Char) : List Char :=
  l.map asciiToLower

/-- Model of JS `hay.includes(needle)`. -/
def jsIncludes : List Char → List Char → Bool
  | [], needle => needle.isEmpty
  | c :: rest, needle => needle.isPrefixOf (c :: rest) || jsIncludes rest needle

/-- Model of JS `hay.startsWith(pre)`. -/
def jsStartsWith (hay pre : List Char) : Bool :=
  pre.isPrefixOf hay

/-- Index of the first occurrence of `pat` in `hay`, if any
(model of JS `hay.indexOf(pat)`). -/
def jsIndexOfSub : List Char → List Char → Option Nat
  | [], pat => if pat.isEmpty then some 0 else none
  | c :: rest, pat =>
    if pat.isPrefixOf (c :: rest) then some 0
    else (jsIndexOfSub rest pat).map (· + 1)

/-- Model of JS `u.replace(/\/$/, '')`: drop a single trailing slash. -/
def stripTrailingSlash (l : List Char) : List Char :=
  if l.getLast? = some '/' then l.dropLast else l

/-- Model of JS `s.trim()` (ASCII whitespace). -/
def trimList (l : List Char) : List Char :=
  ((l.dropWhile wsChar).reverse.dropWhile wsChar).reverse

/-!
## Tokenizer (worker `tokenize`)

Source:
```
const tokenize = (text) => new Set(
  text.toLowerCase().replace(/[^\w\s]/g, '').split(/\s+/)
      .filter(w => w.length > 2 && !stopWords.has(w)));
```
-/

/-- The worker's stop-word set. -/
def stopWords : List (List Char) :=
  (["the", "and", "is", "in", "it", "to", "of", "for", "with", "on",
    "at", "by"].map String.toList)

/-- Model of JS `s.replace(/[^\w\s]/g, '')`: keep only word and whitespace characters. -/
def stripNonWordSpace (l : List Char) : List Char :=
  l.filter (fun c => isWordChar c || wsChar c)

-- Model of JS `s.split(/\s+/)`: pieces between maximal whitespace runs.
-- Faithfully reproduces the JS quirks: an empty leading piece when the string
-- starts with whitespace, an empty trailing piece when it ends with whitespace,
-- and `[""]` on the empty string.  `splitWsTok` accumulates the current piece,
-- `splitWsSep` consumes a whitespace run.
mutual

def splitWsTok (cur : List Char) : List Char → List (List Char)
  | [] => [cur.reverse]
  | c :: rest =>
    if wsChar c then cur.reverse :: splitWsSep rest else splitWsTok (c :: cur) rest

def splitWsSep : List Char → List (List Char)
  | [] => [[]]
  | c :: rest =>
    if wsChar c then splitWsSep rest else splitWsTok [c] rest

end

/-- Model of JS `s.split(/\s+/)`. -/
def splitWs (l : List Char) : List (List Char) :=
  splitWsTok [] l

/-- The worker's token filter: `w.length > 2 && !stopWords.has(w)`. -/
def tokenFilter (w : List Char) : Bool :=
  decide (2 < w.length) && !(stopWords.contains w)

/-- Model of `new Set(...)`: drop duplicates, keeping first occurrences. -/
def dedupGo (seen : List (List Char)) : List (List Char) → List (List Char)
  | [] => []
  | x :: rest =>
    if seen.contains x then dedupGo seen rest else x :: dedupGo (x :: seen) rest

/-- The worker's `tokenize`, as an ordered duplicate-free list (JS `Set` iteration order). -/
def tokenize (text : List Char) : List (List Char) :=
  dedupGo [] ((splitWs (stripNonWordSpace (toLowerList text))).filter tokenFilter)

/-!
## Health scorer (worker `ANALYZE_HEALTH` branch)

The branch computes word count, schema/verdict flags, internal/external
link counts and a recency, then derives the SEO and AEO scores.
The timestamp parse `new Date(modified).getTime()` is a platform builtin;
its result is taken as an input `modifiedMs : Option Int` where `none`
models `NaN` (an unparseable timestamp).
-/

/-- Model of `(content.match(/\b\w+\b/g) || []).length`: the number of maximal
runs of word characters.  `inWord` records whether the previous character was
a word character; `acc` counts the runs already begun. -/
def countWordsGo (inWord : Bool) (acc : Nat) : List Char → Nat
  | [] => acc
  | c :: rest =>
    if isWordChar c then countWordsGo true (if inWord then acc else acc + 1) rest
    else countWordsGo false acc rest

/-- The scorer's word count. -/
def countWords (content : List Char) : Nat :=
  countWordsGo false 0 content

/-- Model of `content.includes('application/ld+json')`. -/
def hasSchemaB (content : List Char) : Bool :=
  jsIncludes content "application/ld+json".toList

/-- Model of `/verdict|conclusion|summary|pros and cons|bottom line/i.test(content)`:
case-insensitive containment of one of the five cues. -/
def hasVerdictB (content : List Char) : Bool :=
  let lc := toLowerList content
  jsIncludes lc "verdict".toList || jsIncludes lc "conclusion".toList ||
  jsIncludes lc "summary".toList || jsIncludes lc "pros and cons".toList ||
  jsIncludes lc "bottom line".toList

/-- One step of the `/href=["'](.*?)["']/g` scan: given the characters after a
candidate `h`, try to match `ref=`, an opening quote, a lazily-matched URL (no
quote of either kind, and `.` excludes line terminators), and a closing quote
of either kind.  Returns the URL and the number of characters consumed after
the initial `h`. -/
def tryHref (rest : List Char) : Option (List Char × Nat) :=
  if "ref=".toList.isPrefixOf rest then
    match rest.drop 4 with
    | q :: afterQ =>
      if q = '"' || q = '\'' then
        let url := afterQ.takeWhile (fun c =>
          !(c = '"' || c = '\'' || c = '\n' || c = '\r'))
        match (afterQ.drop url.length).head? with
        | some q2 =>
          if q2 = '"' || q2 = '\'' then some (url, 4 + 1 + url.length + 1) else none
        | none => none
      else none
    | [] => none
  else none

/-- The `href` scan itself.  A `skip` counter replays the regex engine's jump
over a successful match one character at a time, keeping the recursion
structural. -/
def extractHrefsGo : Nat → List Char → List (List Char)
  | _, [] => []
  | skip + 1, _ :: rest => extractHrefsGo skip rest
  | 0, c :: rest =>
    if c = 'h' then
      match tryHref rest with
      | some (url, m) => url :: extractHrefsGo m rest
      | none => extractHrefsGo 0 rest
    else extractHrefsGo 0 rest

/-- All URLs found by the scorer's `while ((match = linkRegex.exec(content)))` loop. -/
def extractHrefs (content : List Char) : List (List Char) :=
  extractHrefsGo 0 content

/-- The scorer's link classification loop: `internal` if the URL contains the
trailing-slash-stripped site URL or starts with `/`; otherwise `external` if it
starts with `http`; otherwise neither. -/
def linkCounts (cleanSite : List Char) : List (List Char) → Nat × Nat
  | [] => (0, 0)
  | url :: rest =>
    let (i, e) := linkCounts cleanSite rest
    if jsIncludes url cleanSite || jsStartsWith url "/".toList then (i + 1, e)
    else if jsStartsWith url "http".toList then (i, e + 1)
    else (i, e)

/-- Model of `Math.ceil(Math.abs(Date.now() - new Date(modified).getTime()) / 86400000)`.
`none` models the `NaN` produced by an unparseable timestamp (`NaN` propagates
through `abs`, the division and `ceil`). -/
def daysSince (modifiedMs : Option Int) (nowMs : Int) : Option Nat :=
  modifiedMs.map (fun t => ((nowMs - t).natAbs + 86400000 - 1) / 86400000)

/-- The check `diffDays > 365`, with `none` (`NaN`) comparing false as in JS. -/
def recencyOver365 : Option Nat → Bool
  | some d => decide (365 < d)
  | none => false

/-- The metrics block of a `PostHealth` result. -/
structure HealthMetrics where
  wordCount : Nat
  hasSchema : Bool
  hasVerdict : Bool
  brokenMedia : Nat
  internalLinks : Nat
  externalLinks : Nat
  entityDensity : Nat
  lastUpdatedDayCount : Option Nat
  deriving Repr, DecidableEq

/-- The worker's `PostHealth` result. -/
structure PostHealth where
  id : Nat
  score : Int
  aeoScore : Int
  status : List Char
  metrics : HealthMetrics
  deriving Repr, DecidableEq

/-- The `ANALYZE_HEALTH` branch: metrics, additive penalties, floor at 0. -/
def analyzeHealth (idv : Nat) (content : List Char) (modifiedMs : Option Int)
    (nowMs : Int) (siteUrl : List Char) : PostHealth :=
  let wordCount := countWords content
  let hasSchema := hasSchemaB content
  let hasVerdict := hasVerdictB content
  let cleanSite := stripTrailingSlash siteUrl
  let counts := linkCounts cleanSite (extractHrefs content)
  let internal := counts.1
  let external := counts.2
  let diffDays := daysSince modifiedMs nowMs
  let seo : Int := 100
    - (if recencyOver365 diffDays then 20 else 0)
    - (if wordCount < 1000 then 15 else 0)
    - (if internal < 3 then 15 else 0)
    - (if external < 3 then 10 else 0)
    - (if hasSchema then 0 else 10)
  let aeo : Int := 100
    - (if hasVerdict then 0 else 30)
    - (if wordCount < 1500 then 10 else 0)
    - (if hasSchema then 0 else 25)
  { id := idv
    score := max 0 seo
    aeoScore := max 0 aeo
    status := "idle".toList
    metrics :=
      { wordCount := wordCount
        hasSchema := hasSchema
        hasVerdict := hasVerdict
        brokenMedia := 0
        internalLinks := internal
        externalLinks := external
        entityDensity := 0
        lastUpdatedDayCount := diffDays } }

/-!
## Mesh builder (worker `BUILD_MESH` branch)
-/

/-- The fields of a fetched post that `BUILD_MESH` reads
(`p.id`, `p.title.rendered`, `p.slug`, `p.link`). -/
structure WPPost where
  id : Nat
  titleRendered : List Char
  slug : List Char
  link : List Char
  deriving Repr, DecidableEq

/-- A node of the semantic mesh. -/
structure SemanticNode where
  id : Nat
  title : List Char
  url : List Char
  tokens : List (List Char)
  deriving Repr, DecidableEq

/-- The `BUILD_MESH` branch: one node per post, in input order, with
`tokens = tokenize(title.rendered + " " + slug)`. -/
def buildMesh (posts : List WPPost) : List SemanticNode :=
  posts.map (fun p =>
    { id := p.id
      title := p.titleRendered
      url := p.link
      tokens := tokenize (p.titleRendered ++ ' ' :: p.slug) })

/-!
## Link sanitizer (`validateAndSanitizeLinks` in `aiService.ts`)

The function scans anchors with
`/<a\s+(?:[^>]*?\s+)?href=(["'])(.*?)\1[^>]*>(.*?)<\/a>/gi` and rewrites each
match with a callback.  The claims quantify over individual anchors, so the
embedding models a matched anchor as an `AnchorParts` record (the capture
groups plus the uncaptured chunks needed to reassemble the whole match) and
the callback as `sanitizeAnchor`.
-/

/-- Model of `new URL(u).pathname` for the http(s) URLs the sanitizer feeds it:
everything from the first `/` after the `://`-separated authority up to the
first `?` or `#` (defaulting to `/`); `none` models the constructor throwing
on a string without `://`. -/
def urlPathname (u : List Char) : Option (List Char) :=
  match jsIndexOfSub u "://".toList with
  | none => none
  | some i =>
    let afterScheme := u.drop (i + 3)
    let rest := afterScheme.dropWhile (fun c => !(c = '/' || c = '?' || c = '#'))
    if rest.head? = some '/' then some (rest.takeWhile (fun c => !(c = '?' || c = '#')))
    else some ['/']

/-- The sanitizer's shared `normalize`: absolute URLs are reduced to their
pathname, then a trailing slash is stripped and the result lowercased;
relative URLs (and unparseable ones, via the `catch`) are stripped and
lowercased directly. -/
def normalize (u : List Char) : List Char :=
  if jsStartsWith u "http".toList then
    match urlPathname u with
    | some p => toLowerList (stripTrailingSlash p)
    | none => toLowerList (stripTrailingSlash u)
  else toLowerList (stripTrailingSlash u)

/-- The `validPaths` set: normalize every node's URL.  The source collects them in a
`Set`; a list keeps them all, which has the same membership and `some`
semantics. -/
def validPathsOf (nodes : List SemanticNode) : List (List Char) :=
  nodes.map (fun n => normalize n.url)

/-- The callback's internal-link classification: the (trimmed, lowercased)
href starts with `/`, or contains the (non-empty) site URL, or — fallback —
starts with none of `http`, `#`, `mailto`. -/
def isInternalHref (siteUrl href : List Char) : Bool :=
  let lowerHref := toLowerList (trimList href)
  (jsStartsWith lowerHref "/".toList ||
    (!siteUrl.isEmpty && jsIncludes lowerHref siteUrl)) ||
  (!jsStartsWith lowerHref "http".toList && !jsStartsWith lowerHref "#".toList &&
    !jsStartsWith lowerHref "mailto".toList)

/-- The callback's validity test:
`validPaths.has(p) || Array.from(validPaths).some(vp => vp.endsWith(p) || p.endsWith(vp))`. -/
def isValidPath (validPaths : List (List Char)) (p : List Char) : Bool :=
  validPaths.contains p ||
    validPaths.any (fun vp => p.isSuffixOf vp || vp.isSuffixOf p)

/-- Model of `text.replace(/"/g, '')`. -/
def removeQuotes (text : List Char) : List Char :=
  text.filter (fun c => !(c = '"'))

/-- The rewritten valid anchor:
`<a href="${cleanHref}" class="sota-internal-link" title="Read more: ${titleTxt}">${text}</a>`,
where the callback passes `titleTxt = text.replace(/"/g, '')`. -/
def validAnchorOut (cleanHref titleTxt text : List Char) : List Char :=
  ("<a href=\"".toList ++ cleanHref ++
    "\" class=\"sota-internal-link\" title=\"Read more: ".toList) ++
  titleTxt ++ ("\">".toList ++ text ++ "</a>".toList)

/-- The replacement span for an invalid internal link:
`<span class="sota-text-highlight" title="Link removed by validator (404 prevention)">${text}</span>`. -/
def removedSpan (text : List Char) : List Char :=
  "<span class=\"sota-text-highlight\" title=\"Link removed by validator (404 prevention)\">".toList ++
  text ++ "</span>".toList

/-- One anchor match of the sanitizer's regex, split into the capture groups
(`quote`, `href`, `text`) and the uncaptured chunks: `gap` is the
`\s+(?:[^>]*?\s+)?` region between `<a` and `href=`, `tailAttrs` the `[^>]*`
region after the closing quote. -/
structure AnchorParts where
  gap : List Char
  quote : Char
  href : List Char
  tailAttrs : List Char
  text : List Char
  deriving Repr, DecidableEq

/-- The full matched anchor string rebuilt from its parts. -/
def AnchorParts.whole (a : AnchorParts) : List Char :=
  "<a".toList ++ a.gap ++ "href=".toList ++ a.quote :: a.href ++
    a.quote :: a.tailAttrs ++ '>' :: a.text ++ "</a>".toList

/-- The replacement callback of `validateAndSanitizeLinks`: classify the href,
then either rewrite the anchor, strip it to a span, or return the match
unchanged. -/
def sanitizeAnchor (validPaths : List (List Char)) (siteUrl : List Char)
    (a : AnchorParts) : List Char :=
  let cleanHref := trimList a.href
  if isInternalHref siteUrl a.href then
    let pathToCheck := normalize cleanHref
    if isValidPath validPaths pathToCheck then
      validAnchorOut cleanHref (removeQuotes a.text) a.text
    else removedSpan a.text
  else a.whole

/-!
## Markdown-to-HTML normalizer (`forceHtmlStructure` in `aiService.ts`)

Five sequential repairs:
1. `replace(/\(\d+\s*words,?\s*total\s*\d+\)/gi, '')`
2. `replace(/^##\s+(.*$)/gim, '<h2>$1</h2>')`, then the `###`/`<h3>` and
   `####`/`<h4>` analogues
3. `replace(/\*\*(.*?)\*\*/g, '<strong>$1</strong>')`
4. if no `<ul>` is present and a `\n- ` or `\n* ` bullet is, every
   `(?:^|\n)[-*]\s+(.*)` becomes `<li>$1</li>` and each `(<li>.*<\/li>\n?)+`
   run is wrapped in `<ul>…</ul>`
5. `trim()`

Each `g`-replace is embedded as a left-to-right scanner.  As in
`extractHrefsGo`, a `skip` counter replays the engine's jump over a match one
character at a time so that all recursions stay structural.
-/

/-- The ASCII line terminators that the JS `.` never matches and that the
multiline `^` anchors after. -/
def isLineTerm (c : Char) : Bool :=
  c = '\n' || c = '\r'

/-- Case-insensitive literal match: the first `pat.length` characters of `l`,
lowercased, equal `pat` (regex `i` flag on an ASCII literal). -/
def matchLitCI (l pat : List Char) : Bool :=
  pat.isPrefixOf (toLowerList (l.take pat.length))

/-- Match of `\(\d+\s*words,?\s*total\s*\d+\)` starting just after an opening
`(`; returns the number of characters consumed after the `(` (the pattern's
literal-and-class structure makes the greedy backtracking parse
deterministic). -/
def tryWordCountMeta (rest : List Char) : Option Nat :=
  let d1 := rest.takeWhile isDigitChar
  if d1.isEmpty then none else
  let r1 := rest.drop d1.length
  let w1 := r1.takeWhile wsChar
  let r2 := r1.drop w1.length
  if matchLitCI r2 "words".toList then
    let r3 := r2.drop 5
    let commaLen := if r3.head? = some ',' then 1 else 0
    let r4 := r3.drop commaLen
    let w2 := r4.takeWhile wsChar
    let r5 := r4.drop w2.length
    if matchLitCI r5 "total".toList then
      let r6 := r5.drop 5
      let w3 := r6.takeWhile wsChar
      let r7 := r6.drop w3.length
      let d2 := r7.takeWhile isDigitChar
      if d2.isEmpty then none else
      if (r7.drop d2.length).head? = some ')' then
        some (d1.length + w1.length + 5 + commaLen + w2.length + 5 +
          w3.length + d2.length + 1)
      else none
    else none
  else none

/-- Step 1 scanner: delete every word-count annotation. -/
def wcMetaGo : Nat → List Char → List Char
  | _, [] => []
  | skip + 1, _ :: rest => wcMetaGo skip rest
  | 0, c :: rest =>
    if c = '(' then
      match tryWordCountMeta rest with
      | some m => wcMetaGo m rest
      | none => c :: wcMetaGo 0 rest
    else c :: wcMetaGo 0 rest

/-- A run of leading `#` characters followed by at least one whitespace
character (the regexes use `k = 2, 3, 4`; the parameter is `k - 2`). -/
def headerHit (k2 : Nat) (l : List Char) : Bool :=
  l.take (k2 + 2) = List.replicate (k2 + 2) '#' &&
    !((l.drop (k2 + 2)).takeWhile wsChar).isEmpty

/-- The `$1` capture of `^#..#\s+(.*$)`: the rest of the line after the greedy
whitespace run (`\s+` may absorb newlines; `.` stops at the next one). -/
def headerCapture (k2 : Nat) (l : List Char) : List Char :=
  (((l.drop (k2 + 2)).dropWhile wsChar).takeWhile (fun c => !isLineTerm c))

/-- Characters consumed by a header match (the terminating newline, matched
only by the zero-width `$`, is not consumed). -/
def headerLen (k2 : Nat) (l : List Char) : Nat :=
  (k2 + 2) + ((l.drop (k2 + 2)).takeWhile wsChar).length + (headerCapture k2 l).length

/-- The `<hN>` opening tag for `N = k2 + 2`. -/
def openHdrTag (k2 : Nat) : List Char :=
  ['<', 'h', Char.ofNat (48 + (k2 + 2)), '>']

/-- The `</hN>` closing tag for `N = k2 + 2`. -/
def closeHdrTag (k2 : Nat) : List Char :=
  ['<', '/', 'h', Char.ofNat (48 + (k2 + 2)), '>']

/-- Step 2 scanner for one header level: `atStart` tracks the multiline `^`
(string start or just after a newline). -/
def headerGo (k2 : Nat) : Nat → Bool → List Char → List Char
  | _, _, [] => []
  | skip + 1, _, _ :: rest => headerGo k2 skip false rest
  | 0, atStart, c :: rest =>
    if atStart && headerHit k2 (c :: rest) then
      openHdrTag k2 ++ headerCapture k2 (c :: rest) ++ closeHdrTag k2 ++
        headerGo k2 (headerLen k2 (c :: rest) - 1) false rest
    else c :: headerGo k2 0 (isLineTerm c) rest

/-- Position of the first `**` closing pair, scanning characters that the lazy
`(.*?)` may consume (anything but a line terminator). -/
def findBoldClose : List Char → Option Nat
  | [] => none
  | c :: rest =>
    if c = '*' && rest.head? = some '*' then some 0
    else if isLineTerm c then none
    else (findBoldClose rest).map (· + 1)

/-- Step 3 scanner: `\*\*(.*?)\*\*` → `<strong>$1</strong>`. -/
def boldGo : Nat → List Char → List Char
  | _, [] => []
  | skip + 1, _ :: rest => boldGo skip rest
  | 0, c :: rest =>
    if c = '*' && rest.head? = some '*' then
      match findBoldClose (rest.drop 1) with
      | some i =>
        "<strong>".toList ++ (rest.drop 1).take i ++ "</strong>".toList ++
          boldGo (i + 3) rest
      | none => c :: boldGo 0 rest
    else c :: boldGo 0 rest

/-- A bullet marker (`-` or `*`) followed by at least one whitespace character. -/
def bulletHit : List Char → Bool
  | [] => false
  | m :: r => (m = '-' || m = '*') && !(r.takeWhile wsChar).isEmpty

/-- The `$1` capture of `[-*]\s+(.*)`. -/
def bulletCapture (l : List Char) : List Char :=
  ((l.drop 1).dropWhile wsChar).takeWhile (fun c => !isLineTerm c)

/-- Characters consumed by `[-*]\s+(.*)` from the bullet marker on. -/
def bulletLen (l : List Char) : Nat :=
  1 + ((l.drop 1).takeWhile wsChar).length + (bulletCapture l).length

/-- Step 4a scanner: `(?:^|\n)[-*]\s+(.*)` → `<li>$1</li>`.  `first` is the
non-multiline `^` (string start only); in the `\n` alternative the newline is
consumed and so deleted by the replacement. -/
def bulletGo : Nat → Bool → List Char → List Char
  | _, _, [] => []
  | skip + 1, _, _ :: rest => bulletGo skip false rest
  | 0, first, c :: rest =>
    if first && bulletHit (c :: rest) then
      "<li>".toList ++ bulletCapture (c :: rest) ++ "</li>".toList ++
        bulletGo (bulletLen (c :: rest) - 1) false rest
    else if c = '\n' && bulletHit rest then
      "<li>".toList ++ bulletCapture rest ++ "</li>".toList ++
        bulletGo (bulletLen rest) false rest
    else c :: bulletGo 0 false rest

/-- Position of the last occurrence of `pat` in `l`, if any (the greedy
backtracking of `<li>.*<\/li>` selects the last `</li>` on the line). -/
def lastIndexOfSub (pat : List Char) : List Char → Option Nat
  | [] => if pat.isEmpty then some 0 else none
  | c :: rest =>
    match lastIndexOfSub pat rest with
    | some i => some (i + 1)
    | none => if pat.isPrefixOf (c :: rest) then some 0 else none

/-- Length of one `<li>.*<\/li>\n?` block starting at `l`, if it matches. -/
def liBlockLen (l : List Char) : Option Nat :=
  if "<li>".toList.isPrefixOf l then
    let line := (l.drop 4).takeWhile (fun c => !isLineTerm c)
    match lastIndexOfSub "</li>".toList line with
    | some j =>
      let afterBlock := l.drop (4 + j + 5)
      some (4 + j + 5 + (if afterBlock.head? = some '\n' then 1 else 0))
    | none => none
  else none

/-- Length of a maximal `(<li>.*<\/li>\n?)+` run starting at `l` (`fuel`
bounds the number of blocks; each block consumes at least one character, so
`l.length` fuel is enough). -/
def liRunLen (fuel : Nat) (l : List Char) : Option Nat :=
  match fuel with
  | 0 => none
  | fuel + 1 =>
    match liBlockLen l with
    | none => none
    | some b =>
      match liRunLen fuel (l.drop b) with
      | some m => some (b + m)
      | none => some b

/-- Step 4b scanner: wrap every maximal `<li>…</li>` run in `<ul>…</ul>`. -/
def wrapLisGo : Nat → List Char → List Char
  | _, [] => []
  | skip + 1, _ :: rest => wrapLisGo skip rest
  | 0, c :: rest =>
    if c = '<' then
      match liRunLen (c :: rest).length (c :: rest) with
      | some m =>
        "<ul>".toList ++ (c :: rest).take m ++ "</ul>".toList ++
          wrapLisGo (m - 1) rest
      | none => c :: wrapLisGo 0 rest
    else c :: wrapLisGo 0 rest

/-- Step 4: the guarded list conversion. -/
def listStep (clean : List Char) : List Char :=
  if !jsIncludes clean "<ul>".toList &&
      (jsIncludes clean "\n- ".toList || jsIncludes clean "\n* ".toList) then
    wrapLisGo 0 (bulletGo 0 true clean)
  else clean

/-- The normalizer `forceHtmlStructure`: the five repairs in source order. -/
def forceHtmlStructure (text : List Char) : List Char :=
  trimList (listStep (boldGo 0
    (headerGo 2 0 true (headerGo 1 0 true (headerGo 0 0 true
      (wcMetaGo 0 text))))))

/-!
## Supporting lemmas
-/

/-- The empty string is a substring of every string. -/
lemma jsIncludes_nil (l : List Char) : jsIncludes l [] = true := by
  cases l <;> simp [jsIncludes, List.isPrefixOf]

/-- With an empty site URL every URL is classified internal. -/
lemma linkCounts_nil_site (urls : List (List Char)) :
    linkCounts [] urls = (urls.length, 0) := by
  induction urls with
  | nil => rfl
  | cons u rest ih => simp [linkCounts, ih, jsIncludes_nil]

/-- Internal count = number of URLs containing the clean site URL or starting
with `/`; external count = number of the remaining URLs starting with `http`. -/
lemma linkCounts_eq_filters (cleanSite : List Char) (urls : List (List Char)) :
    (linkCounts cleanSite urls).1 =
      (urls.filter (fun u =>
        jsIncludes u cleanSite || jsStartsWith u "/".toList)).length ∧
    (linkCounts cleanSite urls).2 =
      (urls.filter (fun u =>
        !(jsIncludes u cleanSite || jsStartsWith u "/".toList) &&
          jsStartsWith u "http".toList)).length := by
  induction urls with
  | nil => exact ⟨rfl, rfl⟩
  | cons u rest ih =>
    rcases ih with ⟨ih1, ih2⟩
    cases h1 : jsIncludes u cleanSite <;>
      cases h2 : jsStartsWith u ['/'] <;>
      cases h3 : jsStartsWith u ['h', 't', 't', 'p'] <;>
      simp [linkCounts, List.filter_cons, h1, h2, h3, ih1, ih2]

/-- A substring of the right part of an append is a substring of the whole. -/
lemma jsIncludes_append_right (xs ys pat : List Char)
    (h : jsIncludes ys pat = true) : jsIncludes (xs ++ ys) pat = true := by
  induction xs with
  | nil => simpa using h
  | cons x rest ih => simp [jsIncludes, ih]

/-- The href scan ignores a prefix containing no `h`. -/
lemma extractHrefsGo_append_no_h (xs ys : List Char)
    (h : ∀ c ∈ xs, ¬ c = 'h') :
    extractHrefsGo 0 (xs ++ ys) = extractHrefsGo 0 ys := by
  induction xs with
  | nil => rfl
  | cons x rest ih =>
    have hx : ¬ x = 'h' := h x (by simp)
    simp only [List.cons_append, extractHrefsGo, if_neg hx]
    exact ih (fun c hc => h c (by simp [hc]))

/-- Word-count of a `"w "`-block prefix: each block adds exactly one word. -/
lemma countWordsGo_wordBlocks (n : Nat) :
    ∀ (acc : Nat) (ys : List Char),
    countWordsGo false acc ((List.replicate n ['w', ' ']).flatten ++ ys) =
      countWordsGo false (acc + n) ys := by
  induction n with
  | zero => intro acc ys; simp
  | succ n ih =>
    intro acc ys
    have hw : isWordChar 'w' = true := by decide
    have hs : isWordChar ' ' = false := by decide
    simp only [List.replicate_succ, List.flatten_cons, List.append_assoc,
      List.cons_append, List.nil_append, List.append_eq, countWordsGo, hw, hs,
      if_true, if_false, Bool.false_eq_true]
    rw [ih (acc + 1) ys]
    have : acc + 1 + n = acc + (n + 1) := by omega
    rw [this]

/-- A body whose lowercased text contains `verdict` has the verdict cue. -/
lemma hasVerdictB_of_verdict (content : List Char)
    (h : jsIncludes (toLowerList content) "verdict".toList = true) :
    hasVerdictB content = true := by
  have h' : jsIncludes (toLowerList content)
      ['v', 'e', 'r', 'd', 'i', 'c', 't'] = true := by simpa using h
  simp [hasVerdictB, h']

/-- Characters of the `"w "`-block filler are never `h`. -/
lemma wordBlocks_no_h (n : Nat) :
    ∀ c ∈ (List.replicate n ['w', ' ']).flatten, ¬ c = 'h' := by
  intro c hc
  rcases List.mem_flatten.mp hc with ⟨l, hl, hcl⟩
  rw [List.eq_of_mem_replicate hl] at hcl
  simp only [List.mem_cons, List.not_mem_nil, or_false] at hcl
  rcases hcl with rfl | rfl <;> decide

/-- Lowercasing never produces an ASCII uppercase letter. -/
lemma isUpperAscii_asciiToLower (c : Char) :
    isUpperAscii (asciiToLower c) = false := by
  unfold asciiToLower
  by_cases h : (65 ≤ c.toNat && c.toNat ≤ 90) = true
  · rw [if_pos h]
    rw [Bool.and_eq_true, decide_eq_true_eq, decide_eq_true_eq] at h
    have hvalid : (c.toNat + 32).isValidChar := by
      left; omega
    have htn : (Char.ofNat (c.toNat + 32)).toNat = c.toNat + 32 := by
      have hv' : (c.val.toBitVec.toNat + 32).isValidChar := hvalid
      simp [Char.ofNat, hvalid, hv', Char.toNat, Char.ofNatAux, UInt32.toNat]
    simp only [isUpperAscii, htn]
    rw [Bool.and_eq_false_iff]
    right
    rw [decide_eq_false_iff_not]
    omega
  · rw [if_neg h]
    simp only [isUpperAscii]
    simpa using h

/-- Whitespace characters are unchanged by lowercasing. -/
lemma asciiToLower_ws (c : Char) (h : wsChar c = true) : asciiToLower c = c := by
  simp only [wsChar, Bool.or_eq_true, decide_eq_true_eq] at h
  rcases h with ((((rfl | rfl) | rfl) | rfl) | rfl) | rfl <;> decide

/-- Joint facts about the split scan: every character of a piece comes from the
accumulator or the input, and pieces pick up no whitespace characters. -/
lemma splitWs_facts : ∀ (n : Nat) (l : List Char), l.length ≤ n →
    (∀ cur w, w ∈ splitWsTok cur l → ∀ c ∈ w, c ∈ cur ∨ c ∈ l) ∧
    (∀ w, w ∈ splitWsSep l → ∀ c ∈ w, c ∈ l) ∧
    (∀ cur w, w ∈ splitWsTok cur l → (∀ c ∈ cur, wsChar c = false) →
      ∀ c ∈ w, wsChar c = false) ∧
    (∀ w, w ∈ splitWsSep l → ∀ c ∈ w, wsChar c = false) := by
  intro n
  induction n with
  | zero =>
    intro l hl
    rw [Nat.le_zero, List.length_eq_zero] at hl
    subst hl
    refine ⟨?_, ?_, ?_, ?_⟩
    · intro cur w hw c hc
      simp only [splitWsTok, List.mem_singleton] at hw
      subst hw
      exact Or.inl (List.mem_reverse.mp hc)
    · intro w hw c hc
      simp only [splitWsSep, List.mem_singleton] at hw
      subst hw
      simp at hc
    · intro cur w hw hcur c hc
      simp only [splitWsTok, List.mem_singleton] at hw
      subst hw
      exact hcur c (List.mem_reverse.mp hc)
    · intro w hw c hc
      simp only [splitWsSep, List.mem_singleton] at hw
      subst hw
      simp at hc
  | succ n ih =>
    intro l hl
    cases l with
    | nil =>
      refine ⟨?_, ?_, ?_, ?_⟩
      · intro cur w hw c hc
        simp only [splitWsTok, List.mem_singleton] at hw
        subst hw
        exact Or.inl (List.mem_reverse.mp hc)
      · intro w hw c hc
        simp only [splitWsSep, List.mem_singleton] at hw
        subst hw
        simp at hc
      · intro cur w hw hcur c hc
        simp only [splitWsTok, List.mem_singleton] at hw
        subst hw
        exact hcur c (List.mem_reverse.mp hc)
      · intro w hw c hc
        simp only [splitWsSep, List.mem_singleton] at hw
        subst hw
        simp at hc
    | cons a rest =>
      have hrest : rest.length ≤ n := by
        simp only [List.length_cons] at hl; omega
      obtain ⟨ihP, ihP', ihQ, ihQ'⟩ := ih rest hrest
      refine ⟨?_, ?_, ?_, ?_⟩
      · intro cur w hw c hc
        by_cases ha : wsChar a = true
        · rw [splitWsTok, if_pos ha] at hw
          rcases List.mem_cons.mp hw with rfl | hw'
          · exact Or.inl (List.mem_reverse.mp hc)
          · exact Or.inr (List.mem_cons_of_mem a (ihP' w hw' c hc))
        · rw [splitWsTok, if_neg ha] at hw
          rcases ihP (a :: cur) w hw c hc with h | h
          · rcases List.mem_cons.mp h with rfl | h'
            · exact Or.inr (List.mem_cons_self _ _)
            · exact Or.inl h'
          · exact Or.inr (List.mem_cons_of_mem a h)
      · intro w hw c hc
        by_cases ha : wsChar a = true
        · rw [splitWsSep, if_pos ha] at hw
          exact List.mem_cons_of_mem a (ihP' w hw c hc)
        · rw [splitWsSep, if_neg ha] at hw
          rcases ihP [a] w hw c hc with h | h
          · rw [List.mem_singleton] at h
            exact h ▸ List.mem_cons_self _ _
          · exact List.mem_cons_of_mem a h
      · intro cur w hw hcur c hc
        by_cases ha : wsChar a = true
        · rw [splitWsTok, if_pos ha] at hw
          rcases List.mem_cons.mp hw with rfl | hw'
          · exact hcur c (List.mem_reverse.mp hc)
          · exact ihQ' w hw' c hc
        · rw [splitWsTok, if_neg ha] at hw
          refine ihQ (a :: cur) w hw ?_ c hc
          intro c' hc'
          rcases List.mem_cons.mp hc' with rfl | h'
          · exact Bool.not_eq_true _ ▸ ha
          · exact hcur c' h'
      · intro w hw c hc
        by_cases ha : wsChar a = true
        · rw [splitWsSep, if_pos ha] at hw
          exact ihQ' w hw c hc
        · rw [splitWsSep, if_neg ha] at hw
          refine ihQ [a] w hw ?_ c hc
          intro c' hc'
          rw [List.mem_singleton] at hc'
          subst hc'
          exact Bool.not_eq_true _ ▸ ha

/-- Every member of the dedup pass was in the input. -/
lemma dedupGo_subset : ∀ (l : List (List Char)) (seen : List (List Char)) (x : List Char),
    x ∈ dedupGo seen l → x ∈ l := by
  intro l
  induction l with
  | nil => intro seen x hx; simp [dedupGo] at hx
  | cons y rest ih =>
    intro seen x hx
    by_cases hy : seen.contains y = true
    · rw [dedupGo, if_pos hy] at hx
      exact List.mem_cons_of_mem y (ih seen x hx)
    · rw [dedupGo, if_neg hy] at hx
      rcases List.mem_cons.mp hx with rfl | hx'
      · exact List.mem_cons_self _ _
      · exact List.mem_cons_of_mem y (ih (y :: seen) x hx')

/-- The dedup pass never emits something already seen. -/
lemma dedupGo_not_seen : ∀ (l : List (List Char)) (seen : List (List Char)) (x : List Char),
    x ∈ dedupGo seen l → seen.contains x = false := by
  intro l
  induction l with
  | nil => intro seen x hx; simp [dedupGo] at hx
  | cons y rest ih =>
    intro seen x hx
    by_cases hy : seen.contains y = true
    · rw [dedupGo, if_pos hy] at hx
      exact ih seen x hx
    · rw [dedupGo, if_neg hy] at hx
      rcases List.mem_cons.mp hx with rfl | hx'
      · simpa using hy
      · have h2 := ih (y :: seen) x hx'
        simp only [List.contains, List.elem_cons] at h2
        rcases h3 : x == y with _ | _
        · rw [h3] at h2
          simpa using h2
        · rw [h3] at h2
          simp at h2

/-- The dedup pass output has no duplicates. -/
lemma dedupGo_nodup : ∀ (l : List (List Char)) (seen : List (List Char)),
    (dedupGo seen l).Nodup := by
  intro l
  induction l with
  | nil => intro seen; simp [dedupGo]
  | cons y rest ih =>
    intro seen
    by_cases hy : seen.contains y = true
    · rw [dedupGo, if_pos hy]; exact ih seen
    · rw [dedupGo, if_neg hy]
      refine List.nodup_cons.mpr ⟨?_, ih (y :: seen)⟩
      intro hmem
      have := dedupGo_not_seen rest (y :: seen) y hmem
      simp [List.contains, List.elem_cons] at this

/-!
## Claims about the health scorer and mesh builder
-/

/-- C3: for a document body with word count at least 1500, the structured-data
marker present, a verdict cue present, at least 3 internal and at least 3
external links, and a modification date whose derived day count does not
exceed 365, the scorer returns SEO score 100 and AEO score 100. -/
theorem C3_perfect_scores (idv : Nat) (content : List Char) (modifiedMs : Option Int)
    (nowMs : Int) (siteUrl : List Char)
    (hwc : 1500 ≤ countWords content)
    (hschema : hasSchemaB content = true)
    (hverdict : hasVerdictB content = true)
    (hint : 3 ≤ (linkCounts (stripTrailingSlash siteUrl) (extractHrefs content)).1)
    (hext : 3 ≤ (linkCounts (stripTrailingSlash siteUrl) (extractHrefs content)).2)
    (hdays : ∃ d, daysSince modifiedMs nowMs = some d ∧ d ≤ 365) :
    (analyzeHealth idv content modifiedMs nowMs siteUrl).score = 100 ∧
    (analyzeHealth idv content modifiedMs nowMs siteUrl).aeoScore = 100 := by
  obtain ⟨d, hd, hd365⟩ := hdays
  have hrec : recencyOver365 (daysSince modifiedMs nowMs) = false := by
    rw [hd]; simp only [recencyOver365, decide_eq_false_iff_not]; omega
  constructor
  · simp only [analyzeHealth, hrec, hschema, hverdict, Bool.false_eq_true,
      if_false, if_true]
    rw [if_neg (by omega : ¬ countWords content < 1000),
      if_neg (by omega :
        ¬ (linkCounts (stripTrailingSlash siteUrl) (extractHrefs content)).1 < 3),
      if_neg (by omega :
        ¬ (linkCounts (stripTrailingSlash siteUrl) (extractHrefs content)).2 < 3)]
    decide
  · simp only [analyzeHealth, hrec, hschema, hverdict, Bool.false_eq_true,
      if_false, if_true]
    rw [if_neg (by omega : ¬ countWords content < 1500)]
    decide

/-- Witness for C3 at a concrete document: 1500 filler words followed by the
schema marker, a verdict cue, three internal and three external links;
modified now. -/
theorem C3_perfect_scores_witness :
    (analyzeHealth 1
      ((List.replicate 1500 ['w', ' ']).flatten ++
        ("application/ld+json verdict href=\"/a\" href=\"/b\" href=\"/c\" " ++
         "href=\"http://x.org\" href=\"http://y.org\" href=\"http://z.org\"").toList)
      (some 0) 0 "https://mysite.com".toList).score = 100 ∧
    (analyzeHealth 1
      ((List.replicate 1500 ['w', ' ']).flatten ++
        ("application/ld+json verdict href=\"/a\" href=\"/b\" href=\"/c\" " ++
         "href=\"http://x.org\" href=\"http://y.org\" href=\"http://z.org\"").toList)
      (some 0) 0 "https://mysite.com".toList).aeoScore = 100 :=
  C3_perfect_scores 1 _ (some 0) 0 _
    (by rw [countWords, countWordsGo_wordBlocks]; decide)
    (by rw [hasSchemaB]
        exact jsIncludes_append_right _ _ _ (by decide))
    (by refine hasVerdictB_of_verdict _ ?_
        rw [toLowerList, List.map_append]
        exact jsIncludes_append_right _ _ _ (by decide))
    (by rw [extractHrefs, extractHrefsGo_append_no_h _ _ (wordBlocks_no_h 1500)]
        decide)
    (by rw [extractHrefs, extractHrefsGo_append_no_h _ _ (wordBlocks_no_h 1500)]
        decide)
    ⟨0, by decide, by decide⟩


/-- C4 (amended): a URL is counted internal iff it contains the
trailing-slash-stripped site URL or begins with `/`, and external iff it
begins with `http` and is not internal; in particular, for a site URL whose
trailing-slash-stripped form is not a substring of
`https://external.example.com`, a body whose href scan yields exactly
`/about` and `https://external.example.com` counts internal=1, external=1. -/
theorem C4_link_classification :
    (∀ cleanSite urls,
      (linkCounts cleanSite urls).1 =
        (urls.filter (fun u =>
          jsIncludes u cleanSite || jsStartsWith u "/".toList)).length ∧
      (linkCounts cleanSite urls).2 =
        (urls.filter (fun u =>
          !(jsIncludes u cleanSite || jsStartsWith u "/".toList) &&
            jsStartsWith u "http".toList)).length) ∧
    (∀ body siteUrl,
      extractHrefs body =
        ("/about".toList :: "https://external.example.com".toList :: []) →
      jsIncludes "https://external.example.com".toList
        (stripTrailingSlash siteUrl) = false →
      linkCounts (stripTrailingSlash siteUrl) (extractHrefs body) = (1, 1)) := by
  refine ⟨fun cleanSite urls => linkCounts_eq_filters cleanSite urls, ?_⟩
  intro body siteUrl hscan hnotsub
  rw [hscan]
  have h1 : jsStartsWith "/about".toList ['/'] = true := by decide
  have h2 : jsStartsWith "https://external.example.com".toList ['/'] = false := by
    decide
  have h3 : jsStartsWith "https://external.example.com".toList
      ['h', 't', 't', 'p'] = true := by decide
  simp at h1 h2 h3 hnotsub ⊢
  simp [linkCounts, hnotsub, h1, h2, h3]

/-- Witness for C4 (amended) at a concrete body and site URL. -/
theorem C4_link_classification_witness :
    linkCounts (stripTrailingSlash "https://mysite.com/".toList)
      (extractHrefs ("<a href=\"/about\">a</a> " ++
        "<a href=\"https://external.example.com\">b</a>").toList) = (1, 1) :=
  C4_link_classification.2 _ "https://mysite.com/".toList (by decide) (by decide)

/-- Counterexample to C4 as stated: the site URL
`https://external.example.com/` is not a substring of
`https://external.example.com`, yet the body with exactly one `/about` href
and one `https://external.example.com` href counts internal=2, external=0,
because the classification strips the site URL's trailing slash first. -/
theorem C4_counterexample :
    jsIncludes "https://external.example.com".toList
      "https://external.example.com/".toList = false ∧
    extractHrefs ("<a href=\"/about\">a</a> " ++
        "<a href=\"https://external.example.com\">b</a>").toList =
      ("/about".toList :: "https://external.example.com".toList :: []) ∧
    linkCounts (stripTrailingSlash "https://external.example.com/".toList)
      (extractHrefs ("<a href=\"/about\">a</a> " ++
        "<a href=\"https://external.example.com\">b</a>").toList) = (2, 0) :=
  ⟨by decide, by decide, by decide⟩

/-- C9: with an empty canonical site URL every href is classified internal,
so the external count is 0 and the 10-point external-link penalty always
applies, capping the SEO score at 90. -/
theorem C9_empty_site_url (idv : Nat) (content : List Char) (modifiedMs : Option Int)
    (nowMs : Int) :
    (analyzeHealth idv content modifiedMs nowMs []).metrics.externalLinks = 0 ∧
    (analyzeHealth idv content modifiedMs nowMs []).metrics.internalLinks =
      (extractHrefs content).length ∧
    (analyzeHealth idv content modifiedMs nowMs []).score ≤ 90 := by
  have hstrip : stripTrailingSlash ([] : List Char) = [] := by decide
  have hlc := linkCounts_nil_site (extractHrefs content)
  refine ⟨?_, ?_, ?_⟩
  · simp [analyzeHealth, hstrip, hlc]
  · simp [analyzeHealth, hstrip, hlc]
  · simp only [analyzeHealth, hstrip, hlc]
    rw [max_le_iff]
    refine ⟨by decide, ?_⟩
    split_ifs <;> omega

/-- C8: on an unparseable modification timestamp (`NaN` epoch, modelled as
`none`) the scorer still returns a complete result: the derived day count is
the non-finite marker and both scores are well-defined values in `[0, 100]`. -/
theorem C8_malformed_timestamp (idv : Nat) (content : List Char) (nowMs : Int)
    (siteUrl : List Char) :
    (analyzeHealth idv content none nowMs siteUrl).metrics.lastUpdatedDayCount = none ∧
    0 ≤ (analyzeHealth idv content none nowMs siteUrl).score ∧
    (analyzeHealth idv content none nowMs siteUrl).score ≤ 100 ∧
    0 ≤ (analyzeHealth idv content none nowMs siteUrl).aeoScore ∧
    (analyzeHealth idv content none nowMs siteUrl).aeoScore ≤ 100 := by
  refine ⟨by simp [analyzeHealth, daysSince], ?_, ?_, ?_, ?_⟩ <;>
    simp only [analyzeHealth, daysSince, Option.map_none'] <;>
    first
    | exact le_max_left 0 _
    | · rw [max_le_iff]
        refine ⟨by decide, ?_⟩
        split_ifs <;> omega

/-- C5: every token has length greater than 2, contains no ASCII uppercase
letter, and is not a stop word; the output has no duplicates; tokenizing is
case-insensitive on `Cats`/`cats`; and whitespace-only input yields the empty
set. -/
theorem C5_tokenize_properties :
    (∀ s t, t ∈ tokenize s →
      2 < t.length ∧ (∀ c ∈ t, isUpperAscii c = false) ∧
        stopWords.contains t = false) ∧
    (∀ s, (tokenize s).Nodup) ∧
    tokenize "Cats".toList = tokenize "cats".toList ∧
    (∀ s, (∀ c ∈ s, wsChar c = true) → tokenize s = []) := by
  refine ⟨?_, ?_, by decide, ?_⟩
  · intro s t ht
    have hfil := dedupGo_subset _ [] t ht
    rw [List.mem_filter] at hfil
    obtain ⟨hsplit, hpred⟩ := hfil
    rw [tokenFilter, Bool.and_eq_true, decide_eq_true_eq, Bool.not_eq_eq_eq_not,
      Bool.not_true] at hpred
    refine ⟨hpred.1, ?_, hpred.2⟩
    intro c hc
    have hsub := (splitWs_facts (stripNonWordSpace (toLowerList s)).length _
      le_rfl).1 [] t hsplit c hc
    rcases hsub with h | h
    · simp at h
    · have : c ∈ toLowerList s := List.mem_of_mem_filter h
      rcases List.mem_map.mp this with ⟨c0, _, rfl⟩
      exact isUpperAscii_asciiToLower c0
  · intro s
    exact dedupGo_nodup _ []
  · intro s hws
    have hfil : (splitWs (stripNonWordSpace (toLowerList s))).filter tokenFilter = [] := by
      rw [List.filter_eq_nil_iff]
      intro w hw
      intro habs
      rw [tokenFilter, Bool.and_eq_true, decide_eq_true_eq] at habs
      have hlen := habs.1
      have hne : w ≠ [] := by
        intro h0; rw [h0] at hlen; simp at hlen
      obtain ⟨c, hc⟩ := List.exists_mem_of_ne_nil w hne
      have hnws := (splitWs_facts (stripNonWordSpace (toLowerList s)).length _
        le_rfl).2.2.1 [] w hw (by intro x hx; simp at hx) c hc
      have hcs := (splitWs_facts (stripNonWordSpace (toLowerList s)).length _
        le_rfl).1 [] w hw c hc
      rcases hcs with h | h
      · simp at h
      · have hcl : c ∈ toLowerList s := List.mem_of_mem_filter h
        rcases List.mem_map.mp hcl with ⟨c0, hc0, rfl⟩
        have hwsc0 := hws c0 hc0
        rw [asciiToLower_ws c0 hwsc0] at hnws
        rw [hwsc0] at hnws
        simp at hnws
    rw [tokenize, hfil]
    rfl

/-- Witness for C5: applying the theorem at `"Cats"`, whose only token is
`cats`, and at whitespace-only input. -/
theorem C5_tokenize_properties_witness :
    (2 < "cats".toList.length ∧
      (∀ c ∈ "cats".toList, isUpperAscii c = false) ∧
      stopWords.contains "cats".toList = false) ∧
    tokenize "   ".toList = [] :=
  ⟨C5_tokenize_properties.1 "Cats".toList "cats".toList (by decide),
   C5_tokenize_properties.2.2.2 "   ".toList (by decide)⟩

/-- C6: the mesh builder returns one node per post, in input order, and each
node's token set is the tokenizer applied to the post's title, a space, and
its slug. -/
theorem C6_mesh_builder (posts : List WPPost) :
    (buildMesh posts).length = posts.length ∧
    ∀ (i : Nat) (p : WPPost), posts[i]? = some p →
      (buildMesh posts)[i]? = some
        (SemanticNode.mk p.id p.titleRendered p.link
          (tokenize (p.titleRendered ++ ' ' :: p.slug))) := by
  refine ⟨by simp [buildMesh], fun i p hp => ?_⟩
  simp [buildMesh, List.getElem?_map, hp]

/-- Witness for C6 at a concrete one-post list. -/
theorem C6_mesh_builder_witness :
    (buildMesh [⟨7, "My Post".toList, "my-post".toList, "/my-post".toList⟩])[0]? =
      some (SemanticNode.mk 7 "My Post".toList "/my-post".toList
        (tokenize ("My Post".toList ++ ' ' :: "my-post".toList))) :=
  (C6_mesh_builder _).2 0
    (WPPost.mk 7 "My Post".toList "my-post".toList "/my-post".toList) (by decide)

/-!
## Claims about the link sanitizer
-/

/-- The callback's validity test holds iff some index entry is in a suffix
relation (in either direction, exact match included) with the path. -/
lemma isValidPath_iff (validPaths : List (List Char)) (p : List Char) :
    isValidPath validPaths p = true ↔
      ∃ vp ∈ validPaths, p <:+ vp ∨ vp <:+ p := by
  constructor
  · intro h
    rcases Bool.or_eq_true _ _ |>.mp h with hc | ha
    · have hp : p ∈ validPaths := List.elem_iff.mp hc
      exact ⟨p, hp, Or.inl (List.suffix_refl p)⟩
    · rcases List.any_eq_true.mp ha with ⟨vp, hvp, hpred⟩
      rcases Bool.or_eq_true _ _ |>.mp hpred with h1 | h1
      · exact ⟨vp, hvp, Or.inl (List.isSuffixOf_iff_suffix.mp h1)⟩
      · exact ⟨vp, hvp, Or.inr (List.isSuffixOf_iff_suffix.mp h1)⟩
  · rintro ⟨vp, hvp, h | h⟩
    · refine Bool.or_eq_true _ _ |>.mpr (Or.inr ?_)
      exact List.any_eq_true.mpr
        ⟨vp, hvp, Bool.or_eq_true _ _ |>.mpr
          (Or.inl (List.isSuffixOf_iff_suffix.mpr h))⟩
    · refine Bool.or_eq_true _ _ |>.mpr (Or.inr ?_)
      exact List.any_eq_true.mpr
        ⟨vp, hvp, Bool.or_eq_true _ _ |>.mpr
          (Or.inr (List.isSuffixOf_iff_suffix.mpr h))⟩

/-- The anchor text is an infix of the rewritten valid anchor. -/
lemma text_infix_validAnchorOut (h t text : List Char) :
    text <:+: validAnchorOut h t text := by
  have he : validAnchorOut h t text =
      (("<a href=\"".toList ++ h ++
        "\" class=\"sota-internal-link\" title=\"Read more: ".toList) ++ t ++
        "\">".toList) ++ text ++ "</a>".toList := by
    simp [validAnchorOut, List.append_assoc]
  rw [he]
  exact List.infix_append _ _ _

/-- The marker class is an infix of the rewritten valid anchor. -/
lemma marker_infix_validAnchorOut (h t text : List Char) :
    "sota-internal-link".toList <:+: validAnchorOut h t text := by
  have hstep : "sota-internal-link".toList <:+:
      "\" class=\"sota-internal-link\" title=\"Read more: ".toList := by decide
  refine hstep.trans ?_
  have he : validAnchorOut h t text =
      ("<a href=\"".toList ++ h) ++
        "\" class=\"sota-internal-link\" title=\"Read more: ".toList ++
        (t ++ "\">".toList ++ text ++ "</a>".toList) := by
    simp [validAnchorOut, List.append_assoc]
  rw [he]
  exact List.infix_append _ _ _

/-- The anchor text is an infix of the replacement span. -/
lemma text_infix_removedSpan (text : List Char) :
    text <:+: removedSpan text := by
  have he : removedSpan text =
      "<span class=\"sota-text-highlight\" title=\"Link removed by validator (404 prevention)\">".toList ++
        text ++ "</span>".toList := rfl
  rw [he]
  exact List.infix_append _ _ _

/-- The anchor text is an infix of the whole anchor match. -/
lemma text_infix_whole (a : AnchorParts) : a.text <:+: a.whole := by
  have he : a.whole =
      ("<a".toList ++ a.gap ++ "href=".toList ++ a.quote :: a.href ++
        a.quote :: a.tailAttrs ++ ['>']) ++ a.text ++ "</a>".toList := by
    simp [AnchorParts.whole, List.append_assoc]
  rw [he]
  exact List.infix_append _ _ _

/-- C2: per anchor, the sanitizer rewrites an internal href whose normalized
path is in a suffix relation (or exact match) with some valid-path entry into
the marked anchor preserving the text, replaces any other internal href by the
marked span with the same text and no surviving href, passes non-internal
anchors through unchanged, and never drops the visible text. -/
theorem C2_sanitizer_cases (validPaths : List (List Char)) (siteUrl : List Char)
    (a : AnchorParts) :
    (isInternalHref siteUrl a.href = true →
      ((∃ vp ∈ validPaths,
          normalize (trimList a.href) <:+ vp ∨ vp <:+ normalize (trimList a.href)) →
        sanitizeAnchor validPaths siteUrl a =
          validAnchorOut (trimList a.href) (removeQuotes a.text) a.text ∧
        "sota-internal-link".toList <:+: sanitizeAnchor validPaths siteUrl a) ∧
      (¬ (∃ vp ∈ validPaths,
          normalize (trimList a.href) <:+ vp ∨ vp <:+ normalize (trimList a.href)) →
        sanitizeAnchor validPaths siteUrl a = removedSpan a.text ∧
        "sota-text-highlight".toList <:+: sanitizeAnchor validPaths siteUrl a)) ∧
    (isInternalHref siteUrl a.href = false →
      sanitizeAnchor validPaths siteUrl a = a.whole) ∧
    a.text <:+: sanitizeAnchor validPaths siteUrl a := by
  refine ⟨?_, ?_, ?_⟩
  · intro hint
    constructor
    · intro hex
      have hv : isValidPath validPaths (normalize (trimList a.href)) = true :=
        (isValidPath_iff _ _).mpr hex
      have hout : sanitizeAnchor validPaths siteUrl a =
          validAnchorOut (trimList a.href) (removeQuotes a.text) a.text := by
        rw [sanitizeAnchor, if_pos hint, if_pos hv]
      refine ⟨hout, ?_⟩
      rw [hout]
      exact marker_infix_validAnchorOut _ _ _
    · intro hnex
      have hv : isValidPath validPaths (normalize (trimList a.href)) = false := by
        rcases hb : isValidPath validPaths (normalize (trimList a.href)) with _ | _
        · rfl
        · exact absurd ((isValidPath_iff _ _).mp hb) hnex
      have hout : sanitizeAnchor validPaths siteUrl a = removedSpan a.text := by
        rw [sanitizeAnchor, if_pos hint, if_neg (by rw [hv]; exact Bool.false_ne_true)]
      refine ⟨hout, ?_⟩
      rw [hout]
      have hstep : "sota-text-highlight".toList <:+:
          "<span class=\"sota-text-highlight\" title=\"Link removed by validator (404 prevention)\">".toList := by
        decide
      refine hstep.trans ?_
      have he : removedSpan a.text =
          [] ++ "<span class=\"sota-text-highlight\" title=\"Link removed by validator (404 prevention)\">".toList ++
            (a.text ++ "</span>".toList) := by
        simp [removedSpan, List.append_assoc]
      rw [he]
      exact List.infix_append _ _ _
  · intro hint
    rw [sanitizeAnchor, if_neg (by rw [hint]; exact Bool.false_ne_true)]
  · rw [sanitizeAnchor]
    by_cases hint : isInternalHref siteUrl a.href = true
    · rw [if_pos hint]
      by_cases hv : isValidPath validPaths (normalize (trimList a.href)) = true
      · rw [if_pos hv]
        exact text_infix_validAnchorOut _ _ _
      · rw [if_neg hv]
        exact text_infix_removedSpan _
    · rw [if_neg hint]
      exact text_infix_whole a

/-- Witness for C2 at a concrete valid internal anchor. -/
theorem C2_sanitizer_cases_witness :
    sanitizeAnchor ("/reviews/widget".toList :: []) "https://mysite.com".toList
      (AnchorParts.mk " ".toList '"' "/reviews/widget".toList [] "Widget".toList) =
      validAnchorOut "/reviews/widget".toList "Widget".toList "Widget".toList :=
  (((C2_sanitizer_cases _ _ _).1 (by decide)).1
    ⟨"/reviews/widget".toList, by decide, Or.inl (by decide)⟩).1

/-- C10: with a non-empty valid-path set, every internal anchor whose href
normalizes to the empty path passes the suffix test (every entry ends with the
empty string) and is rewritten as a valid internal link, never stripped. -/
theorem C10_empty_path_always_valid (validPaths : List (List Char))
    (siteUrl : List Char) (a : AnchorParts)
    (hne : validPaths ≠ [])
    (hint : isInternalHref siteUrl a.href = true)
    (hpath : normalize (trimList a.href) = []) :
    sanitizeAnchor validPaths siteUrl a =
      validAnchorOut (trimList a.href) (removeQuotes a.text) a.text := by
  obtain ⟨vp, rest, rfl⟩ : ∃ vp rest, validPaths = vp :: rest := by
    cases validPaths with
    | nil => exact absurd rfl hne
    | cons vp rest => exact ⟨vp, rest, rfl⟩
  have hv : isValidPath (vp :: rest) (normalize (trimList a.href)) = true := by
    rw [hpath]
    refine (isValidPath_iff _ _).mpr ?_
    exact ⟨vp, List.mem_cons_self _ _, Or.inl (List.nil_suffix)⟩
  rw [sanitizeAnchor, if_pos hint, if_pos hv]

/-- Witness for C10 at `href="/"`, which normalizes to the empty path. -/
theorem C10_empty_path_always_valid_witness :
    sanitizeAnchor ("/reviews/widget".toList :: []) "https://mysite.com".toList
      (AnchorParts.mk " ".toList '"' "/".toList [] "Home".toList) =
      validAnchorOut "/".toList "Home".toList "Home".toList :=
  C10_empty_path_always_valid _ _ _ (by decide) (by decide) (by decide)

/-- C7 (amended): the rewritten valid anchor carries a well-formed title
attribute whose value is `Read more: ` followed by the link text with every
double-quote character removed (not escaped); the stripped text contains no
double quote, so it cannot terminate the attribute early, and it coincides
with the link text whenever that text is quote-free. -/
theorem C7_title_attribute (validPaths : List (List Char)) (siteUrl : List Char)
    (a : AnchorParts)
    (hint : isInternalHref siteUrl a.href = true)
    (hval : isValidPath validPaths (normalize (trimList a.href)) = true) :
    ("title=\"Read more: ".toList ++ removeQuotes a.text ++ "\">".toList) <:+:
      sanitizeAnchor validPaths siteUrl a ∧
    (∀ c ∈ removeQuotes a.text, ¬ c = '"') ∧
    ((∀ c ∈ a.text, ¬ c = '"') → removeQuotes a.text = a.text) := by
  refine ⟨?_, ?_, ?_⟩
  · have hout : sanitizeAnchor validPaths siteUrl a =
        validAnchorOut (trimList a.href) (removeQuotes a.text) a.text := by
      rw [sanitizeAnchor, if_pos hint, if_pos hval]
    rw [hout]
    have hsplit : "\" class=\"sota-internal-link\" title=\"Read more: ".toList =
        "\" class=\"sota-internal-link\" ".toList ++ "title=\"Read more: ".toList := by
      decide
    have he : validAnchorOut (trimList a.href) (removeQuotes a.text) a.text =
        ("<a href=\"".toList ++ trimList a.href ++
          "\" class=\"sota-internal-link\" ".toList) ++
        ("title=\"Read more: ".toList ++ removeQuotes a.text ++ "\">".toList) ++
        (a.text ++ "</a>".toList) := by
      simp [validAnchorOut, hsplit, List.append_assoc]
    rw [he]
    exact List.infix_append _ _ _
  · intro c hc
    have := List.mem_filter.mp hc
    simpa using this.2
  · intro h
    refine List.filter_eq_self.mpr ?_
    intro c hc
    simpa using h c hc

/-- Witness for C7 at a concrete anchor whose text contains a double quote. -/
theorem C7_title_attribute_witness :
    ("title=\"Read more: ".toList ++
      removeQuotes ('a' :: '"' :: 'b' :: []) ++ "\">".toList) <:+:
      sanitizeAnchor ("/w".toList :: []) "https://mysite.com".toList
        (AnchorParts.mk " ".toList '"' "/w".toList [] ('a' :: '"' :: 'b' :: [])) :=
  (C7_title_attribute ("/w".toList :: []) "https://mysite.com".toList
    (AnchorParts.mk " ".toList '"' "/w".toList [] ('a' :: '"' :: 'b' :: []))
    (by decide) (by decide)).1

/-- Counterexample to C7 as stated: the title does not echo the link text with
its quote characters escaped — an escape replaces each character (in
particular each `"`) by a non-empty sequence, so it never shortens the text,
yet for the anchor text `a"b` the emitted title text is the two-character
`ab`: the quote is deleted outright.  No length-preserving-or-growing map
`esc` can describe the title the sanitizer produces. -/
theorem C7_counterexample :
    ¬ ∃ esc : List Char → List Char,
      (∀ t : List Char, t.length ≤ (esc t).length) ∧
      sanitizeAnchor ("/w".toList :: []) "https://mysite.com".toList
        (AnchorParts.mk " ".toList '"' "/w".toList [] ('a' :: '"' :: 'b' :: [])) =
      validAnchorOut "/w".toList (esc ('a' :: '"' :: 'b' :: []))
        ('a' :: '"' :: 'b' :: []) := by
  rintro ⟨esc, hlen, heq⟩
  have hconc : sanitizeAnchor ("/w".toList :: []) "https://mysite.com".toList
      (AnchorParts.mk " ".toList '"' "/w".toList [] ('a' :: '"' :: 'b' :: [])) =
      validAnchorOut "/w".toList ('a' :: 'b' :: []) ('a' :: '"' :: 'b' :: []) := by
    decide
  rw [hconc] at heq
  unfold validAnchorOut at heq
  have h1 := List.append_cancel_right heq
  have h2 := List.append_cancel_left h1
  have h3 := hlen ('a' :: '"' :: 'b' :: [])
  rw [← h2] at h3
  simp at h3

/-!
## Claims about the Markdown-to-HTML normalizer
-/

/-- Step 1 is the identity on strings without `(`. -/
lemma wcMetaGo_id : ∀ (l : List Char), (∀ c ∈ l, ¬ c = '(') →
    wcMetaGo 0 l = l := by
  intro l
  induction l with
  | nil => intro _; rfl
  | cons c rest ih =>
    intro h
    have hc : ¬ c = '(' := h c (List.mem_cons_self _ _)
    rw [wcMetaGo, if_neg hc, ih (fun c' hc' => h c' (List.mem_cons_of_mem c hc'))]

/-- A header trigger needs a leading `#`. -/
lemma headerHit_false (k2 : Nat) (c : Char) (rest : List Char) (hc : ¬ c = '#') :
    headerHit k2 (c :: rest) = false := by
  have hne : ¬ (List.take (k2 + 2) (c :: rest) = List.replicate (k2 + 2) '#') := by
    rw [List.take_succ_cons, List.replicate_succ]
    intro h0
    injection h0 with h1 _
    exact hc h1
  rw [headerHit, decide_eq_false hne, Bool.false_and]

/-- Step 2 is the identity on strings without `#`. -/
lemma headerGo_id (k2 : Nat) : ∀ (l : List Char), (∀ c ∈ l, ¬ c = '#') →
    ∀ (b : Bool), headerGo k2 0 b l = l := by
  intro l
  induction l with
  | nil => intro _ b; rfl
  | cons c rest ih =>
    intro h b
    have hc : ¬ c = '#' := h c (List.mem_cons_self _ _)
    rw [headerGo, headerHit_false k2 c rest hc, Bool.and_false]
    simp only [Bool.false_eq_true, if_false]
    rw [ih (fun c' hc' => h c' (List.mem_cons_of_mem c hc'))]

/-- Step 3 is the identity on strings without `*`. -/
lemma boldGo_id : ∀ (l : List Char), (∀ c ∈ l, ¬ c = '*') →
    boldGo 0 l = l := by
  intro l
  induction l with
  | nil => intro _; rfl
  | cons c rest ih =>
    intro h
    have hc : ¬ c = '*' := h c (List.mem_cons_self _ _)
    rw [boldGo]
    have hfalse : (decide (c = '*') && rest.head? = some '*') = false := by
      simp [hc]
    rw [hfalse]
    simp only [Bool.false_eq_true, if_false]
    rw [ih (fun c' hc' => h c' (List.mem_cons_of_mem c hc'))]

/-- A match of a non-empty needle puts its head character in the haystack. -/
lemma jsIncludes_head_mem : ∀ (l : List Char) (c : Char) (pat : List Char),
    jsIncludes l (c :: pat) = true → c ∈ l := by
  intro l
  induction l with
  | nil => intro c pat h; simp [jsIncludes, List.isEmpty] at h
  | cons a rest ih =>
    intro c pat h
    rcases Bool.or_eq_true _ _ |>.mp h with hpre | hrec
    · rw [List.isPrefixOf] at hpre
      rcases Bool.and_eq_true _ _ |>.mp hpre with ⟨hca, _⟩
      rw [beq_iff_eq] at hca
      exact hca ▸ List.mem_cons_self _ _
    · exact List.mem_cons_of_mem a (ih c pat hrec)

/-- Step 4 is skipped on strings without a newline. -/
lemma listStep_id (l : List Char) (h : ∀ c ∈ l, ¬ c = '\n') :
    listStep l = l := by
  have h1 : jsIncludes l "\n- ".toList = false := by
    rcases hb : jsIncludes l "\n- ".toList with _ | _
    · rfl
    · have : ('\n' : Char) ∈ l := jsIncludes_head_mem l '\n' ['-', ' '] hb
      exact absurd rfl (h '\n' this)
  have h2 : jsIncludes l "\n* ".toList = false := by
    rcases hb : jsIncludes l "\n* ".toList with _ | _
    · rfl
    · have : ('\n' : Char) ∈ l := jsIncludes_head_mem l '\n' ['*', ' '] hb
      exact absurd rfl (h '\n' this)
  rw [listStep, h1, h2]
  simp

/-- Characters of the trimmed string come from the string. -/
lemma trimList_subset (l : List Char) : ∀ c ∈ trimList l, c ∈ l := by
  intro c hc
  rw [trimList, List.mem_reverse] at hc
  have h1 := (List.dropWhile_sublist (l := (l.dropWhile wsChar).reverse) wsChar).subset hc
  rw [List.mem_reverse] at h1
  exact (List.dropWhile_sublist (l := l) wsChar).subset h1

/-- Dropping a satisfied prefix twice is the same as dropping it once. -/
lemma dropWhile_dropWhile (p : Char → Bool) : ∀ (l : List Char),
    (l.dropWhile p).dropWhile p = l.dropWhile p := by
  intro l
  induction l with
  | nil => rfl
  | cons a rest ih =>
    by_cases hp : p a = true
    · rw [List.dropWhile_cons_of_pos hp]; exact ih
    · rw [List.dropWhile_cons_of_neg hp, List.dropWhile_cons_of_neg hp]

/-- Trimming is idempotent. -/
lemma trimList_trimList (l : List Char) :
    trimList (trimList l) = trimList l := by
  have htl : trimList l = ((l.dropWhile wsChar).reverse.dropWhile wsChar).reverse := rfl
  cases hBe : (l.dropWhile wsChar).reverse.dropWhile wsChar with
  | nil => rw [htl, hBe]; rfl
  | cons b bs =>
    have hBne : (l.dropWhile wsChar).reverse.dropWhile wsChar ≠ [] := by
      rw [hBe]; exact List.cons_ne_nil b bs
    have hAne : l.dropWhile wsChar ≠ [] := by
      intro h0
      rw [h0] at hBne
      exact hBne rfl
    obtain ⟨a0, A', hA0⟩ : ∃ x xs, l.dropWhile wsChar = x :: xs := by
      cases hA : l.dropWhile wsChar with
      | nil => exact absurd hA hAne
      | cons x xs => exact ⟨x, xs, rfl⟩
    have hhead : wsChar a0 = false := by
      have hm := List.head?_dropWhile_not wsChar l
      rw [hA0] at hm
      simpa using hm
    have hsuf : (l.dropWhile wsChar).reverse.dropWhile wsChar <:+
        (l.dropWhile wsChar).reverse := List.dropWhile_suffix wsChar
    obtain ⟨pre, hpre⟩ := hsuf
    have hBlast : ((l.dropWhile wsChar).reverse.dropWhile wsChar).getLast? = some a0 := by
      have e1 : ((l.dropWhile wsChar).reverse.dropWhile wsChar).getLast? =
          (pre ++ (l.dropWhile wsChar).reverse.dropWhile wsChar).getLast? := by
        rw [List.getLast?_append]
        rw [hBe]
        cases hbl : (b :: bs).getLast? with
        | none => simp at hbl
        | some x => simp
      rw [e1, hpre, List.getLast?_reverse, hA0]
      rfl
    have hBrev : ((l.dropWhile wsChar).reverse.dropWhile wsChar).reverse.head? = some a0 := by
      rw [List.head?_reverse]
      exact hBlast
    have hstep1 : ((l.dropWhile wsChar).reverse.dropWhile wsChar).reverse.dropWhile wsChar =
        ((l.dropWhile wsChar).reverse.dropWhile wsChar).reverse := by
      cases hbr : ((l.dropWhile wsChar).reverse.dropWhile wsChar).reverse with
      | nil => rfl
      | cons x xs =>
        have hx : x = a0 := by
          rw [hbr] at hBrev
          simpa using hBrev
        rw [List.dropWhile_cons_of_neg]
        rw [hx, hhead]
        exact Bool.false_ne_true
    rw [htl]
    show trimList ((l.dropWhile wsChar).reverse.dropWhile wsChar).reverse =
      ((l.dropWhile wsChar).reverse.dropWhile wsChar).reverse
    rw [trimList, hstep1, List.reverse_reverse]
    have hdd : ((l.dropWhile wsChar).reverse.dropWhile wsChar).dropWhile wsChar =
        (l.dropWhile wsChar).reverse.dropWhile wsChar := dropWhile_dropWhile wsChar _
    rw [hdd]

/-- On strings containing none of `#`, `*`, `(`, or a newline, all five
repairs reduce to trimming. -/
lemma forceHtmlStructure_plain (l : List Char)
    (h : ∀ c ∈ l, ¬ c = '#' ∧ ¬ c = '*' ∧ ¬ c = '(' ∧ ¬ c = '\n') :
    forceHtmlStructure l = trimList l := by
  rw [forceHtmlStructure]
  rw [wcMetaGo_id l (fun c hc => (h c hc).2.2.1)]
  rw [headerGo_id 0 l (fun c hc => (h c hc).1) true]
  rw [headerGo_id 1 l (fun c hc => (h c hc).1) true]
  rw [headerGo_id 2 l (fun c hc => (h c hc).1) true]
  rw [boldGo_id l (fun c hc => (h c hc).2.1)]
  rw [listStep_id l (fun c hc => (h c hc).2.2.2)]

/-- C1 (amended): the normalizer is not idempotent in general; it is
idempotent on every input containing none of the Markdown-trigger characters
`#`, `*`, `(` and no newline, where it reduces to whitespace trimming. -/
theorem C1_normalizer_idempotent_on_plain (l : List Char)
    (h : ∀ c ∈ l, ¬ c = '#' ∧ ¬ c = '*' ∧ ¬ c = '(' ∧ ¬ c = '\n') :
    forceHtmlStructure (forceHtmlStructure l) = forceHtmlStructure l := by
  rw [forceHtmlStructure_plain l h]
  rw [forceHtmlStructure_plain (trimList l)
    (fun c hc => h c (trimList_subset l c hc))]
  exact trimList_trimList l

/-- Witness for C1 (amended) at a plain concrete input. -/
theorem C1_normalizer_idempotent_on_plain_witness :
    forceHtmlStructure (forceHtmlStructure "hello world".toList) =
      forceHtmlStructure "hello world".toList :=
  C1_normalizer_idempotent_on_plain "hello world".toList (by decide)

/-- Counterexample to C1 as stated: on `" ## x"` the leading space hides the
Markdown header from the first pass (`^##` does not match), the final `trim`
exposes it, and the second pass converts it to `<h2>x</h2>` — a further
change. -/
theorem C1_normalizer_counterexample :
    forceHtmlStructure (forceHtmlStructure (' ' :: '#' :: '#' :: ' ' :: 'x' :: [])) ≠
      forceHtmlStructure (' ' :: '#' :: '#' :: ' ' :: 'x' :: []) := by
  decide

end Aeo
